import Mathlib

/-!
# GenomicsDB `VCFAdapter`: contig registry and coordinate translation

A shallow embedding of `src/variant/src/vcf_adapter.cc`:

* `VCFAdapter::initialize` (the part that builds the two contig views),
* `VCFAdapter::get_contig_location` ("locate"),
* `VCFAdapter::get_next_contig_location` ("next contig after"),
* `VCFAdapter::get_sample_name_for_idx` ("get name").

Conventions of the embedding.

* `int64_t` values are integers (`Int`); every `+` and `-` the source performs on
  them is followed by `wrap64`, the reduction to the two's-complement range.
  A value "is an int64" when `IsInt64` holds of it.
* `assert` is enabled: a failing assertion ends the call with `Except.error`,
  naming the assertion.  A read outside an array is reported as
  `Fault.out_of_bounds_read`.
* A `bool` function with output parameters returns `Option`: `none` is `false`
  (outputs untouched), `some out` is `true` with the outputs written.
* `std::sort`, `std::lower_bound` and `std::upper_bound` are library code; they are
  embedded by an insertion sort driven by the comparator and by the usual halving
  loop over the index range.
-/

namespace GenomicsDB

/-! ## Machine integers -/

/-- Largest `int64_t`. -/
def INT64_MAX : Int := 9223372036854775807

/-- Smallest `int64_t`. -/
def INT64_MIN : Int := -9223372036854775808

/-- Reduction of an integer to the two's-complement `int64_t` range. -/
def wrap64 (x : Int) : Int := (x + 2 ^ 63) % 2 ^ 64 - 2 ^ 63

/-- The integer is representable as an `int64_t`. -/
def IsInt64 (x : Int) : Prop := INT64_MIN ≤ x ∧ x ≤ INT64_MAX

instance (x : Int) : Decidable (IsInt64 x) := by
  unfold IsInt64; exact inferInstance

/-! ## Data -/

/-- One contig: the `i`-th entries of `m_contig_names`, `input_contig_idx_2_offset`
and `m_contig_lengths`. -/
structure Contig where
  name : String
  offset : Int
  length : Int
deriving DecidableEq, Repr

/-- Modelled from the spec: the declaration of `sqlite_mappings_struct` is not among
the sources.  The three parallel contig arrays of length `m_num_contigs` are one list
of records (§3 "Contig record", §6 "an ordered sequence of (contig_name,
declared_offset, length) tuples"), and `m_sample_names` is the ordered sequence of
sample names of length `m_num_samples` (§3 "Sample Index"). -/
structure sqlite_mappings_struct where
  contigs : List Contig
  m_sample_names : List String
deriving DecidableEq, Repr

/-- Field `m_num_contigs`. -/
def sqlite_mappings_struct.m_num_contigs (s : sqlite_mappings_struct) : Int :=
  (s.contigs.length : Int)

/-- Field `m_num_samples`. -/
def sqlite_mappings_struct.m_num_samples (s : sqlite_mappings_struct) : Int :=
  (s.m_sample_names.length : Int)

/-- What ends a call abnormally. -/
inductive Fault where
  /-- Assertion `m_contig_begin_2_idx.size() > 0u` of `get_contig_location`. -/
  | assert_view_nonempty
  /-- Assertion `iter != m_contig_begin_2_idx.begin()` of `get_contig_location`. -/
  | assert_iter_not_begin
  /-- Assertion `idx < m_num_contigs` of `get_contig_location`, and assertion
  `idx >=0 && idx < m_num_contigs` of `get_next_contig_location`. -/
  | assert_idx_in_range
  /-- Assertion `next_contig_offset > query_position` of `get_next_contig_location`. -/
  | assert_offset_after_query
  /-- Assertion `idx < m_num_samples` of `get_sample_name_for_idx`. -/
  | assert_sample_idx
  /-- A read outside the bounds of an array (undefined behaviour in the source). -/
  | out_of_bounds_read
deriving DecidableEq, Repr

deriving instance DecidableEq for Except

/-- Array read `xs[i]` with a signed index. -/
def read {α : Type} (xs : List α) (i : Int) : Except Fault α :=
  if 0 ≤ i then
    match xs[i.toNat]? with
    | some x => .ok x
    | none => .error .out_of_bounds_read
  else .error .out_of_bounds_read

/-- The members of `VCFAdapter` that the contig and sample queries use. -/
structure VCFAdapter where
  m_sqlite_mapping_info : sqlite_mappings_struct
  m_contig_begin_2_idx : List (Int × Int)
  m_contig_end_2_idx : List (Int × Int)
deriving DecidableEq, Repr

/-! ## Library routines -/

/-- Comparator of the two views: order by the first component only. -/
def contig_offset_idx_pair_cmp (first second : Int × Int) : Bool :=
  decide (first.1 < second.1)

/-- The order `std::sort` establishes with a comparator `comp`: `a` may stand before
`b` when `comp b a` is false. -/
def not_after (comp : Int × Int → Int × Int → Bool) (a b : Int × Int) : Prop :=
  comp b a = false

instance (comp : Int × Int → Int × Int → Bool) : DecidableRel (not_after comp) :=
  fun a b => by unfold not_after; exact inferInstance

/-- Model of `std::sort(first, last, comp)`: insertion of each element before the first one
that is not less than it.  Elements the comparator does not separate keep their input
order. -/
def std_sort (comp : Int × Int → Int × Int → Bool) (v : List (Int × Int)) :
    List (Int × Int) :=
  List.insertionSort (not_after comp) v

/-- The halving loop shared by `std::lower_bound` and `std::upper_bound`: `goRight i`
tells whether the element at index `i` lies before the position searched for.
`steps` bounds the number of iterations; the callers pass the length of the range,
which the loop never exhausts. -/
def bound_loop (goRight : Nat → Bool) : Nat → Nat → Nat → Nat
  | 0, first, _ => first
  | steps + 1, first, len =>
    if len = 0 then first
    else
      let half := len / 2
      let middle := first + half
      if goRight middle then bound_loop goRight steps (middle + 1) (len - half - 1)
      else bound_loop goRight steps first half

/-- Model of `std::lower_bound(v.begin(), v.end(), val, comp) - v.begin()`. -/
def lower_bound (v : List (Int × Int)) (val : Int × Int)
    (comp : Int × Int → Int × Int → Bool) : Nat :=
  bound_loop (fun i => match v[i]? with
    | some e => comp e val
    | none => false) v.length 0 v.length

/-- Model of `std::upper_bound(v.begin(), v.end(), val, comp) - v.begin()`. -/
def upper_bound (v : List (Int × Int)) (val : Int × Int)
    (comp : Int × Int → Int × Int → Bool) : Nat :=
  bound_loop (fun i => match v[i]? with
    | some e => !comp val e
    | none => false) v.length 0 v.length

/-! ## `VCFAdapter::initialize` -/

/-- The scan of `initialize` (the `for` loop over the contigs), from index `i` on, with
`last_contig_offset` the offset seen just before: the entries written to
`m_contig_begin_2_idx` and `m_contig_end_2_idx`, and whether `sort_needed` is set. -/
def scan_contigs : Int → Int → List Contig →
    List (Int × Int) × List (Int × Int) × Bool
  | _, _, [] => ([], [], false)
  | i, last_contig_offset, c :: rest =>
    let contig_offset := c.offset
    let contig_length := c.length
    let tail := scan_contigs (i + 1) contig_offset rest
    ((contig_offset, i) :: tail.1,
     (wrap64 (wrap64 (contig_offset + contig_length) - 1), i) :: tail.2.1,
     decide (contig_offset < last_contig_offset) || tail.2.2)

/-- Function `VCFAdapter::initialize`, the construction of the two views from the mapping
information read from the metadata store. -/
def initialize_adapter (info : sqlite_mappings_struct) : VCFAdapter :=
  let scanned := scan_contigs 0 0 info.contigs
  if scanned.2.2 then
    { m_sqlite_mapping_info := info
      m_contig_begin_2_idx := std_sort contig_offset_idx_pair_cmp scanned.1
      m_contig_end_2_idx := std_sort contig_offset_idx_pair_cmp scanned.2.1 }
  else
    { m_sqlite_mapping_info := info
      m_contig_begin_2_idx := scanned.1
      m_contig_end_2_idx := scanned.2.1 }

/-- The registry built from a list of contig records (and no samples). -/
def build (records : List Contig) : VCFAdapter :=
  initialize_adapter { contigs := records, m_sample_names := [] }

/-! ## Queries -/

/-- The first part of `get_contig_location` (up to, not including, the test
`if(idx < 0)`): the backing index `idx` chosen from the by-begin view, or the assertion
that fails on the way. -/
def candidate_idx (a : VCFAdapter) (query_position : Int) : Except Fault Int :=
  let v := a.m_contig_begin_2_idx
  let query_pair : Int × Int := (query_position, 0)
  let iter := lower_bound v query_pair contig_offset_idx_pair_cmp
  if iter = v.length then
    if v.length > 0 then
      (fun e => e.2) <$> read v ((v.length : Int) - 1)
    else .error .assert_view_nonempty
  else do
    let found ← read v iter
    if found.1 = query_position then
      pure found.2
    else if iter ≠ 0 then
      (fun e => e.2) <$> read v ((iter : Int) - 1)
    else .error .assert_iter_not_begin

/-- Function `VCFAdapter::get_contig_location`: `candidate_idx`, then the range test on
the record at `idx`. -/
def get_contig_location (a : VCFAdapter) (query_position : Int) :
    Except Fault (Option (String × Int)) := do
  let idx ← candidate_idx a query_position
  if idx < 0 then
    return none
  if ¬ idx < a.m_sqlite_mapping_info.m_num_contigs then
    throw .assert_idx_in_range
  let c ← read a.m_sqlite_mapping_info.contigs idx
  let contig_offset := c.offset
  let contig_length := c.length
  if query_position ≥ contig_offset ∧
      query_position < wrap64 (contig_offset + contig_length) then
    return some (c.name, wrap64 (query_position - contig_offset))
  return none

/-- Function `VCFAdapter::get_next_contig_location`. -/
def get_next_contig_location (a : VCFAdapter) (query_position : Int) :
    Except Fault (Option (String × Int)) := do
  let v := a.m_contig_begin_2_idx
  let query_pair : Int × Int := (query_position, 0)
  let iter := upper_bound v query_pair contig_offset_idx_pair_cmp
  if iter = v.length then
    return some ("", INT64_MAX)
  let found ← read v iter
  let idx := found.2
  if ¬ (idx ≥ 0 ∧ idx < a.m_sqlite_mapping_info.m_num_contigs) then
    throw .assert_idx_in_range
  let c ← read a.m_sqlite_mapping_info.contigs idx
  let next_contig_offset := c.offset
  if ¬ next_contig_offset > query_position then
    throw .assert_offset_after_query
  return some (c.name, next_contig_offset)

/-- Function `VCFAdapter::get_sample_name_for_idx`. -/
def get_sample_name_for_idx (a : VCFAdapter) (idx : Int) : Except Fault String :=
  if ¬ idx < a.m_sqlite_mapping_info.m_num_samples then
    .error .assert_sample_idx
  else read a.m_sqlite_mapping_info.m_sample_names idx

/-! ## Order of a view -/

/-- The by-begin view is in non-decreasing order of its first components. -/
def ViewSorted (v : List (Int × Int)) : Prop :=
  v.Pairwise (fun a b => a.1 ≤ b.1)

instance : IsTotal (Int × Int) (not_after contig_offset_idx_pair_cmp) :=
  ⟨fun a b => by
    simp only [not_after, contig_offset_idx_pair_cmp, decide_eq_false_iff_not]
    omega⟩

instance : IsTrans (Int × Int) (not_after contig_offset_idx_pair_cmp) :=
  ⟨fun a b c => by
    simp only [not_after, contig_offset_idx_pair_cmp, decide_eq_false_iff_not]
    omega⟩

/-! ## Vocabulary of the statements -/

/-- The record is made of `int64_t` values and its exclusive end `offset + length` is
an `int64_t` too: the range of the contig lies in the coordinate space. -/
def Contig.WellTyped (c : Contig) : Prop :=
  IsInt64 c.offset ∧ IsInt64 c.length ∧ IsInt64 (c.offset + c.length)

instance (c : Contig) : Decidable c.WellTyped := by
  unfold Contig.WellTyped; exact inferInstance

/-- The position lies in the range `[offset, offset + length)` of the contig. -/
def Contig.Contains (c : Contig) (p : Int) : Prop :=
  c.offset ≤ p ∧ p < c.offset + c.length

instance (c : Contig) (p : Int) : Decidable (c.Contains p) := by
  unfold Contig.Contains; exact inferInstance

/-- The ranges `[offset, offset + length)` of two contigs have no position in common
(stated for ranges of positive length). -/
def RangesDisjoint (a b : Contig) : Prop :=
  a.offset + a.length ≤ b.offset ∨ b.offset + b.length ≤ a.offset

instance : DecidableRel RangesDisjoint :=
  fun a b => by unfold RangesDisjoint; exact inferInstance

/-! ## Concrete registries -/

/-- The contigs of the first concrete scenario of the specification. -/
def scenario_contiguous : List Contig :=
  [⟨"chr1", 0, 100⟩, ⟨"chr2", 100, 50⟩]

/-- The contigs of the second concrete scenario of the specification, with a gap,
listed out of order. -/
def scenario_gap : List Contig :=
  [⟨"chrB", 20, 10⟩, ⟨"chrA", 0, 10⟩]

/-- Two contigs in ascending order of offset, the second inside the first. -/
def scenario_overlap : List Contig :=
  [⟨"a", 0, 100⟩, ⟨"b", 50, 10⟩]

/-- One contig that starts above zero. -/
def scenario_high_start : List Contig :=
  [⟨"chr1", 10, 5⟩]

/-- An adapter with one sample and no contig. -/
def scenario_one_sample : VCFAdapter :=
  { m_sqlite_mapping_info := { contigs := [], m_sample_names := ["s0"] }
    m_contig_begin_2_idx := []
    m_contig_end_2_idx := [] }

/-! ## Output format -/

/-- The table `valid_output_formats` of `initialize`: the recognised format strings,
each with whether it denotes BCF. -/
def valid_output_formats : List (String × Bool) :=
  [("b", true), ("bu", true), ("z", false), ("", false)]

/-- The choice of output format in `initialize`: the format string that is appended to
`"w"` for `bcf_open`, and the value stored in `m_is_bcf`.  A string that the table does
not hold is replaced by `"z"`; `m_is_bcf` is the table's entry for the resulting string
(`operator[]`, which yields `false` for a key that is absent). -/
def select_output_format (output_format : String) : String × Bool :=
  let output_format :=
    if (valid_output_formats.lookup output_format).isNone then "z" else output_format
  let m_is_bcf := (valid_output_formats.lookup output_format).getD false
  (output_format, m_is_bcf)

/-! ## Arithmetic on int64 values -/

theorem wrap64_of_isInt64 {x : Int} (h : IsInt64 x) : wrap64 x = x := by
  unfold IsInt64 INT64_MIN INT64_MAX at h
  unfold wrap64
  have h1 : (x + 2 ^ 63) % 2 ^ 64 = x + 2 ^ 63 :=
    Int.emod_eq_of_lt (by omega) (by omega)
  omega

/-! ## The order of the views -/

theorem std_sort_perm (v : List (Int × Int)) :
    (std_sort contig_offset_idx_pair_cmp v).Perm v :=
  List.perm_insertionSort _ v

theorem std_sort_sorted (v : List (Int × Int)) :
    ViewSorted (std_sort contig_offset_idx_pair_cmp v) := by
  have h := List.sorted_insertionSort (not_after contig_offset_idx_pair_cmp) v
  refine List.Pairwise.imp ?_ h
  intro a b hab
  simp only [not_after, contig_offset_idx_pair_cmp, decide_eq_false_iff_not] at hab
  omega

theorem viewSorted_le {v : List (Int × Int)} (hs : ViewSorted v) {i j : Nat}
    {a b : Int × Int} (hij : i ≤ j) (ha : v[i]? = some a) (hb : v[j]? = some b) :
    a.1 ≤ b.1 := by
  obtain ⟨hi, rfl⟩ := List.getElem?_eq_some.1 ha
  obtain ⟨hj, rfl⟩ := List.getElem?_eq_some.1 hb
  rcases Nat.lt_or_eq_of_le hij with h | h
  · exact (List.pairwise_iff_getElem.1 hs) i j hi hj h
  · subst h; exact le_refl _

/-! ## The scan of `initialize` -/

theorem scan_begin_length (cs : List Contig) :
    ∀ i last, (scan_contigs i last cs).1.length = cs.length := by
  induction cs with
  | nil => intro i last; rfl
  | cons c rest ih => intro i last; simp [scan_contigs, ih]

theorem scan_begin_entry (cs : List Contig) :
    ∀ (i last : Int) (k : Nat),
      (scan_contigs i last cs).1[k]? = (cs[k]?).map (fun c => (c.offset, i + k)) := by
  induction cs with
  | nil => intro i last k; simp [scan_contigs]
  | cons c rest ih =>
    intro i last k
    cases k with
    | zero => simp [scan_contigs]
    | succ k =>
      simp only [scan_contigs, List.getElem?_cons_succ, ih]
      cases rest[k]? with
      | none => rfl
      | some d => simp only [Option.map_some', Nat.cast_add, Nat.cast_one]; congr 2; ring

theorem scan_end_length (cs : List Contig) :
    ∀ i last, (scan_contigs i last cs).2.1.length = cs.length := by
  induction cs with
  | nil => intro i last; rfl
  | cons c rest ih => intro i last; simp [scan_contigs, ih]

theorem scan_end_entry (cs : List Contig) :
    ∀ (i last : Int) (k : Nat),
      (scan_contigs i last cs).2.1[k]? =
        (cs[k]?).map (fun c => (wrap64 (wrap64 (c.offset + c.length) - 1), i + k)) := by
  induction cs with
  | nil => intro i last k; simp [scan_contigs]
  | cons c rest ih =>
    intro i last k
    cases k with
    | zero => simp [scan_contigs]
    | succ k =>
      simp only [scan_contigs, List.getElem?_cons_succ, ih]
      cases rest[k]? with
      | none => rfl
      | some d => simp only [Option.map_some', Nat.cast_add, Nat.cast_one]; congr 2; ring

/-- When the scan leaves `sort_needed` unset, the by-begin entries it wrote are in
non-decreasing order, and none is below the offset the scan started from. -/
theorem scan_sorted_of_not_needed (cs : List Contig) :
    ∀ i last, (scan_contigs i last cs).2.2 = false →
      (∀ e ∈ (scan_contigs i last cs).1, last ≤ e.1) ∧
        ViewSorted (scan_contigs i last cs).1 := by
  induction cs with
  | nil => intro i last _; simp [scan_contigs, ViewSorted]
  | cons c rest ih =>
    intro i last h
    simp only [scan_contigs, Bool.or_eq_false_iff, decide_eq_false_iff_not] at h
    obtain ⟨h1, h2⟩ := ih (i + 1) c.offset h.2
    refine ⟨?_, ?_⟩
    · intro e he
      simp only [scan_contigs, List.mem_cons] at he
      rcases he with rfl | he
      · simp only; omega
      · have := h1 e he; omega
    · simp only [scan_contigs, ViewSorted, List.pairwise_cons]
      exact ⟨fun e he => h1 e he, h2⟩

/-! ## The halving loop -/

theorem bound_loop_spec (g : Nat → Bool) (n : Nat)
    (hmono : ∀ i j, i ≤ j → j < n → g j = true → g i = true) :
    ∀ steps first len, len ≤ steps → first + len ≤ n →
      (∀ i, i < first → g i = true) →
      (∀ i, first + len ≤ i → i < n → g i = false) →
      first ≤ bound_loop g steps first len ∧
      bound_loop g steps first len ≤ first + len ∧
      (∀ i, i < bound_loop g steps first len → g i = true) ∧
      (∀ i, bound_loop g steps first len ≤ i → i < n → g i = false) := by
  intro steps
  induction steps with
  | zero =>
    intro first len hl _ hlo hhi
    have : len = 0 := by omega
    subst this
    exact ⟨le_refl _, by simp [bound_loop], hlo, by simpa [bound_loop] using hhi⟩
  | succ steps ih =>
    intro first len hl hn hlo hhi
    unfold bound_loop
    by_cases h0 : len = 0
    · subst h0
      simp only [if_true]
      exact ⟨le_refl _, by omega, hlo, by simpa using hhi⟩
    · simp only [h0, if_false]
      have hhalf : len / 2 < len := Nat.div_lt_self (by omega) (by omega)
      by_cases hg : g (first + len / 2) = true
      · simp only [hg, if_true]
        have key := ih (first + len / 2 + 1) (len - len / 2 - 1) (by omega) (by omega)
          (fun i hi => hmono i (first + len / 2) (by omega) (by omega) hg)
          (fun i hi hin => hhi i (by omega) hin)
        refine ⟨by omega, by omega, key.2.2.1, key.2.2.2⟩
      · simp only [hg, if_false, Bool.false_eq_true]
        have key := ih first (len / 2) (by omega) (by omega) hlo
          (fun i hi hin => by
            by_contra hc
            have hc' : g i = true := by simpa using hc
            exact hg (hmono (first + len / 2) i hi hin hc'))
        refine ⟨key.1, by omega, key.2.2.1, key.2.2.2⟩

/-! ## `std::lower_bound` and `std::upper_bound` on a sorted view -/

theorem lower_bound_spec (v : List (Int × Int)) (p : Int) (hs : ViewSorted v) :
    lower_bound v (p, 0) contig_offset_idx_pair_cmp ≤ v.length ∧
    (∀ i e, i < lower_bound v (p, 0) contig_offset_idx_pair_cmp →
      v[i]? = some e → e.1 < p) ∧
    (∀ i e, lower_bound v (p, 0) contig_offset_idx_pair_cmp ≤ i →
      v[i]? = some e → p ≤ e.1) := by
  have key := bound_loop_spec
    (fun i => match v[i]? with
      | some e => contig_offset_idx_pair_cmp e (p, 0)
      | none => false) v.length
    (by
      intro i j hij hj hg
      have hjv : v[j]? = some v[j] := List.getElem?_eq_getElem hj
      have hiv : v[i]? = some v[i] := List.getElem?_eq_getElem (by omega)
      simp only [hjv, hiv, contig_offset_idx_pair_cmp, decide_eq_true_eq] at hg ⊢
      have := viewSorted_le hs hij hiv hjv
      omega)
    v.length 0 v.length (le_refl _) (by omega) (by intro i hi; omega)
    (by intro i hi hin; omega)
  refine ⟨by simpa [lower_bound] using key.2.1, ?_, ?_⟩
  · intro i e hi he
    have := key.2.2.1 i hi
    simpa [he, contig_offset_idx_pair_cmp] using this
  · intro i e hi he
    have hin : i < v.length := (List.getElem?_eq_some.1 he).1
    have := key.2.2.2 i hi hin
    simpa [he, contig_offset_idx_pair_cmp] using this

theorem upper_bound_spec (v : List (Int × Int)) (p : Int) (hs : ViewSorted v) :
    upper_bound v (p, 0) contig_offset_idx_pair_cmp ≤ v.length ∧
    (∀ i e, i < upper_bound v (p, 0) contig_offset_idx_pair_cmp →
      v[i]? = some e → e.1 ≤ p) ∧
    (∀ i e, upper_bound v (p, 0) contig_offset_idx_pair_cmp ≤ i →
      v[i]? = some e → p < e.1) := by
  have key := bound_loop_spec
    (fun i => match v[i]? with
      | some e => !contig_offset_idx_pair_cmp (p, 0) e
      | none => false) v.length
    (by
      intro i j hij hj hg
      have hjv : v[j]? = some v[j] := List.getElem?_eq_getElem hj
      have hiv : v[i]? = some v[i] := List.getElem?_eq_getElem (by omega)
      simp only [hjv, hiv, contig_offset_idx_pair_cmp, Bool.not_eq_true',
        decide_eq_false_iff_not] at hg ⊢
      have := viewSorted_le hs hij hiv hjv
      omega)
    v.length 0 v.length (le_refl _) (by omega) (by intro i hi; omega)
    (by intro i hi hin; omega)
  refine ⟨by simpa [upper_bound] using key.2.1, ?_, ?_⟩
  · intro i e hi he
    have := key.2.2.1 i hi
    simpa [he, contig_offset_idx_pair_cmp] using this
  · intro i e hi he
    have hin : i < v.length := (List.getElem?_eq_some.1 he).1
    have := key.2.2.2 i hi hin
    simpa [he, contig_offset_idx_pair_cmp] using this

/-! ## The registry after `initialize` -/

theorem initialize_info (info : sqlite_mappings_struct) :
    (initialize_adapter info).m_sqlite_mapping_info = info := by
  by_cases h : (scan_contigs 0 0 info.contigs).2.2 = true <;>
    simp [initialize_adapter, h]

theorem initialize_begin_perm (info : sqlite_mappings_struct) :
    (initialize_adapter info).m_contig_begin_2_idx.Perm
      (scan_contigs 0 0 info.contigs).1 := by
  by_cases h : (scan_contigs 0 0 info.contigs).2.2 = true
  · simp only [initialize_adapter, h, if_true]
    exact std_sort_perm _
  · simp only [initialize_adapter, h, if_false, Bool.false_eq_true]
    exact List.Perm.refl _

theorem initialize_begin_sorted (info : sqlite_mappings_struct) :
    ViewSorted (initialize_adapter info).m_contig_begin_2_idx := by
  by_cases h : (scan_contigs 0 0 info.contigs).2.2 = true
  · simp only [initialize_adapter, h, if_true]
    exact std_sort_sorted _
  · simp only [initialize_adapter, h, if_false, Bool.false_eq_true]
    exact (scan_sorted_of_not_needed info.contigs 0 0 (by simpa using h)).2

theorem initialize_begin_length (info : sqlite_mappings_struct) :
    (initialize_adapter info).m_contig_begin_2_idx.length = info.contigs.length := by
  rw [(initialize_begin_perm info).length_eq, scan_begin_length]

/-- Every entry of the by-begin view is `(offset of record k, k)` for a backing index
`k`, and every backing index has its entry. -/
theorem initialize_begin_mem (info : sqlite_mappings_struct) (e : Int × Int) :
    e ∈ (initialize_adapter info).m_contig_begin_2_idx ↔
      ∃ (k : Nat) (c : Contig), info.contigs[k]? = some c ∧ e = (c.offset, (k : Int)) := by
  rw [(initialize_begin_perm info).mem_iff, List.mem_iff_getElem?]
  constructor
  · rintro ⟨k, hk⟩
    rw [scan_begin_entry] at hk
    cases hc : info.contigs[k]? with
    | none => simp [hc] at hk
    | some c =>
      refine ⟨k, c, hc, ?_⟩
      simp [hc] at hk
      exact hk.symm
  · rintro ⟨k, c, hc, rfl⟩
    exact ⟨k, by rw [scan_begin_entry, hc]; simp⟩

theorem read_nat {α : Type} (xs : List α) (k : Nat) (x : α) (h : xs[k]? = some x) :
    read xs (k : Int) = .ok x := by
  simp [read, h]

theorem read_pred {α : Type} (xs : List α) (n : Nat) (x : α) (hn : 0 < n)
    (h : xs[n - 1]? = some x) : read xs ((n : Int) - 1) = .ok x := by
  have e : ((n : Int) - 1) = ((n - 1 : Nat) : Int) := by omega
  rw [e]
  exact read_nat _ _ _ h

theorem exists_entry {α : Type} (xs : List α) (i : Nat) (h : i < xs.length) :
    ∃ x, xs[i]? = some x :=
  ⟨xs[i], List.getElem?_eq_getElem h⟩

/-! ## The candidate chosen by `get_contig_location` -/

/-- On a sorted by-begin view holding an entry at or below the query position, the
candidate is an entry with the greatest first component not above the position. -/
theorem candidate_view (a : VCFAdapter) (p : Int)
    (hs : ViewSorted a.m_contig_begin_2_idx)
    (h : ∃ e ∈ a.m_contig_begin_2_idx, e.1 ≤ p) :
    ∃ e ∈ a.m_contig_begin_2_idx, candidate_idx a p = .ok e.2 ∧ e.1 ≤ p ∧
      ∀ e' ∈ a.m_contig_begin_2_idx, e'.1 ≤ p → e'.1 ≤ e.1 := by
  obtain ⟨hle, hlt, hge⟩ := lower_bound_spec a.m_contig_begin_2_idx p hs
  obtain ⟨e0, he0, he0p⟩ := h
  obtain ⟨j0, hj0⟩ := List.mem_iff_getElem?.1 he0
  have hj0lt : j0 < a.m_contig_begin_2_idx.length := (List.getElem?_eq_some.1 hj0).1
  simp only [candidate_idx]
  generalize lower_bound a.m_contig_begin_2_idx (p, 0) contig_offset_idx_pair_cmp = r
    at hle hlt hge ⊢
  by_cases hr : r = a.m_contig_begin_2_idx.length
  · rw [if_pos hr, if_pos (by omega)]
    obtain ⟨l, hlast⟩ := exists_entry a.m_contig_begin_2_idx
      (a.m_contig_begin_2_idx.length - 1) (by omega)
    refine ⟨l, List.mem_iff_getElem?.2 ⟨_, hlast⟩, ?_, ?_, ?_⟩
    · rw [read_pred _ _ _ (by omega) hlast]; rfl
    · have := hlt _ _ (by omega) hlast; omega
    · intro e' he' _
      obtain ⟨j, hj⟩ := List.mem_iff_getElem?.1 he'
      have hjlt : j < a.m_contig_begin_2_idx.length := (List.getElem?_eq_some.1 hj).1
      exact viewSorted_le hs (by omega) hj hlast
  · rw [if_neg hr]
    obtain ⟨f, hf⟩ := exists_entry a.m_contig_begin_2_idx r (by omega)
    rw [read_nat _ _ _ hf]
    simp only [bind, Except.bind, pure, Except.pure]
    by_cases hfp : f.1 = p
    · rw [if_pos hfp]
      exact ⟨f, List.mem_iff_getElem?.2 ⟨_, hf⟩, rfl, by omega, fun e' _ h' => by omega⟩
    · rw [if_neg hfp]
      have hfge := hge _ _ (le_refl _) hf
      have hr0 : r ≠ 0 := by
        intro h0
        have h1 := hge j0 e0 (by omega) hj0
        have h2 := viewSorted_le hs (by omega : r ≤ j0) hf hj0
        omega
      rw [if_pos hr0]
      obtain ⟨g, hg⟩ := exists_entry a.m_contig_begin_2_idx (r - 1) (by omega)
      refine ⟨g, List.mem_iff_getElem?.2 ⟨_, hg⟩, ?_, ?_, ?_⟩
      · rw [read_pred _ _ _ (by omega) hg]; rfl
      · have := hlt _ _ (by omega) hg; omega
      · intro e' he' hle'
        obtain ⟨j, hj⟩ := List.mem_iff_getElem?.1 he'
        by_cases hjr : j < r
        · exact viewSorted_le hs (by omega) hj hg
        · have h1 := hge j e' (by omega) hj
          have h2 := viewSorted_le hs (by omega : r ≤ j) hf hj
          omega

/-- On a sorted by-begin view all of whose entries lie above the query position, the
candidate search ends in a failed assertion: the one on the size of the view when it is
empty, the one on the iterator otherwise. -/
theorem candidate_view_fault (a : VCFAdapter) (p : Int)
    (hs : ViewSorted a.m_contig_begin_2_idx)
    (h : ∀ e ∈ a.m_contig_begin_2_idx, p < e.1) :
    candidate_idx a p = .error
      (if a.m_contig_begin_2_idx = [] then Fault.assert_view_nonempty
       else Fault.assert_iter_not_begin) := by
  obtain ⟨hle, hlt, hge⟩ := lower_bound_spec a.m_contig_begin_2_idx p hs
  simp only [candidate_idx]
  by_cases hnil : a.m_contig_begin_2_idx = []
  · simp [hnil, lower_bound, bound_loop]
  · have hpos : 0 < a.m_contig_begin_2_idx.length := List.length_pos.2 hnil
    obtain ⟨f, h0⟩ := exists_entry a.m_contig_begin_2_idx 0 hpos
    have h2 := h _ (List.mem_iff_getElem?.2 ⟨_, h0⟩)
    have hr0 : lower_bound a.m_contig_begin_2_idx (p, 0) contig_offset_idx_pair_cmp = 0 := by
      by_contra hne
      have h1 := hlt 0 _ (by omega) h0
      omega
    rw [hr0, if_neg (by omega), if_neg hnil]
    have hread : read a.m_contig_begin_2_idx ((0 : Nat) : Int) = .ok f := read_nat _ _ _ h0
    rw [hread]
    simp only [bind, Except.bind, pure, Except.pure]
    rw [if_neg (by omega), if_neg (by simp)]

/-! ## Characterisation of the two queries on a built registry -/

/-- Behaviour of `get_contig_location` on a built registry, when some record starts at or below the
position: the candidate is a record with the greatest offset not above the position,
and the answer is decided on that record alone. -/
theorem locate_char (info : sqlite_mappings_struct) (p : Int)
    (h : ∃ c ∈ info.contigs, c.offset ≤ p) :
    ∃ c ∈ info.contigs, c.offset ≤ p ∧
      (∀ c' ∈ info.contigs, c'.offset ≤ p → c'.offset ≤ c.offset) ∧
      get_contig_location (initialize_adapter info) p =
        .ok (if p < wrap64 (c.offset + c.length)
          then some (c.name, wrap64 (p - c.offset)) else none) := by
  have hmem := initialize_begin_mem info
  obtain ⟨c0, hc0, hc0p⟩ := h
  obtain ⟨k0, hk0⟩ := List.mem_iff_getElem?.1 hc0
  obtain ⟨e, he, hcand, hep, hmax⟩ := candidate_view (initialize_adapter info) p
    (initialize_begin_sorted info)
    ⟨(c0.offset, (k0 : Int)), (hmem _).2 ⟨k0, c0, hk0, rfl⟩, hc0p⟩
  obtain ⟨k, c, hk, rfl⟩ := (hmem e).1 he
  have hklt : k < info.contigs.length := (List.getElem?_eq_some.1 hk).1
  refine ⟨c, List.mem_iff_getElem?.2 ⟨k, hk⟩, hep, ?_, ?_⟩
  · intro c' hc' hc'p
    obtain ⟨k', hk'⟩ := List.mem_iff_getElem?.1 hc'
    exact hmax (c'.offset, (k' : Int)) ((hmem _).2 ⟨k', c', hk', rfl⟩) hc'p
  · simp only [get_contig_location, hcand, initialize_info,
      sqlite_mappings_struct.m_num_contigs, bind, Except.bind, pure, Except.pure]
    rw [if_neg (by omega), if_neg (by simp; omega), read_nat _ _ _ hk]
    simp only [ge_iff_le]
    simp only at hep
    by_cases hlt : p < wrap64 (c.offset + c.length)
    · rw [if_pos ⟨hep, hlt⟩, if_pos hlt]
    · rw [if_neg (fun hh => hlt hh.2), if_neg hlt]

/-- Behaviour of `get_contig_location` on a built registry, when every record starts above the
position (in particular when there is no record): an assertion fails. -/
theorem locate_fault (info : sqlite_mappings_struct) (p : Int)
    (h : ∀ c ∈ info.contigs, p < c.offset) :
    get_contig_location (initialize_adapter info) p = .error
      (if info.contigs = [] then Fault.assert_view_nonempty
       else Fault.assert_iter_not_begin) := by
  have hmem := initialize_begin_mem info
  have hcand := candidate_view_fault (initialize_adapter info) p
    (initialize_begin_sorted info) (by
      intro e he
      obtain ⟨k, c, hk, rfl⟩ := (hmem e).1 he
      exact h c (List.mem_iff_getElem?.2 ⟨k, hk⟩))
  have hnil : (initialize_adapter info).m_contig_begin_2_idx = [] ↔ info.contigs = [] := by
    rw [← List.length_eq_zero, ← List.length_eq_zero, initialize_begin_length]
  simp only [get_contig_location, hcand, bind, Except.bind]
  by_cases hn : info.contigs = []
  · rw [if_pos hn, if_pos (hnil.2 hn)]
  · rw [if_neg hn, if_neg (fun hh => hn (hnil.1 hh))]

/-- Behaviour of `get_next_contig_location` on a built registry, when some record starts above the
position: the answer is the name and offset of a record with the least such offset. -/
theorem next_char (info : sqlite_mappings_struct) (p : Int)
    (h : ∃ c ∈ info.contigs, p < c.offset) :
    ∃ c ∈ info.contigs, p < c.offset ∧
      (∀ c' ∈ info.contigs, p < c'.offset → c.offset ≤ c'.offset) ∧
      get_next_contig_location (initialize_adapter info) p = .ok (some (c.name, c.offset)) := by
  have hmem := initialize_begin_mem info
  have hs := initialize_begin_sorted info
  obtain ⟨hle, hlt, hge⟩ := upper_bound_spec (initialize_adapter info).m_contig_begin_2_idx p hs
  obtain ⟨c0, hc0, hc0p⟩ := h
  obtain ⟨k0, hk0⟩ := List.mem_iff_getElem?.1 hc0
  obtain ⟨j0, hj0⟩ := List.mem_iff_getElem?.1 ((hmem (c0.offset, (k0 : Int))).2 ⟨k0, c0, hk0, rfl⟩)
  have hj0lt := (List.getElem?_eq_some.1 hj0).1
  simp only [get_next_contig_location]
  generalize upper_bound (initialize_adapter info).m_contig_begin_2_idx (p, 0)
    contig_offset_idx_pair_cmp = r at hle hlt hge ⊢
  have hr : r ≠ (initialize_adapter info).m_contig_begin_2_idx.length := by
    intro hr
    have := hlt j0 _ (by omega) hj0
    simp only at this
    omega
  obtain ⟨f, hf⟩ := exists_entry (initialize_adapter info).m_contig_begin_2_idx r (by omega)
  obtain ⟨k, c, hk, rfl⟩ := (hmem f).1 (List.mem_iff_getElem?.2 ⟨_, hf⟩)
  have hklt : k < info.contigs.length := (List.getElem?_eq_some.1 hk).1
  have hfp := hge r _ (le_refl _) hf
  simp only at hfp
  refine ⟨c, List.mem_iff_getElem?.2 ⟨k, hk⟩, hfp, ?_, ?_⟩
  · intro c' hc' hc'p
    obtain ⟨k', hk'⟩ := List.mem_iff_getElem?.1 hc'
    obtain ⟨j, hj⟩ := List.mem_iff_getElem?.1
      ((hmem (c'.offset, (k' : Int))).2 ⟨k', c', hk', rfl⟩)
    by_cases hjr : j < r
    · have := hlt j _ hjr hj
      simp only at this
      omega
    · exact viewSorted_le hs (by omega : r ≤ j) hf hj
  · simp only [bind, Except.bind, pure, Except.pure, initialize_info,
      sqlite_mappings_struct.m_num_contigs]
    rw [if_neg hr, read_nat _ _ _ hf]
    simp only []
    rw [if_neg (by simp; omega), read_nat _ _ _ hk]
    simp only []
    rw [if_neg (by simp; omega)]

/-- Behaviour of `get_next_contig_location` on a built registry, when no record starts above the
position (in particular when there is no record): the sentinel. -/
theorem next_sentinel (info : sqlite_mappings_struct) (p : Int)
    (h : ∀ c ∈ info.contigs, c.offset ≤ p) :
    get_next_contig_location (initialize_adapter info) p = .ok (some ("", INT64_MAX)) := by
  have hmem := initialize_begin_mem info
  have hs := initialize_begin_sorted info
  obtain ⟨hle, hlt, hge⟩ := upper_bound_spec (initialize_adapter info).m_contig_begin_2_idx p hs
  simp only [get_next_contig_location]
  generalize upper_bound (initialize_adapter info).m_contig_begin_2_idx (p, 0)
    contig_offset_idx_pair_cmp = r at hle hlt hge ⊢
  have hr : r = (initialize_adapter info).m_contig_begin_2_idx.length := by
    by_contra hne
    obtain ⟨f, hf⟩ := exists_entry (initialize_adapter info).m_contig_begin_2_idx r (by omega)
    obtain ⟨k, c, hk, rfl⟩ := (hmem f).1 (List.mem_iff_getElem?.2 ⟨_, hf⟩)
    have h1 := hge r _ (le_refl _) hf
    have h2 := h c (List.mem_iff_getElem?.2 ⟨k, hk⟩)
    simp only at h1
    omega
  rw [if_pos hr]
  rfl

/-! ## The characterisations, for a registry built from a list of records -/

theorem build_locate_char (recs : List Contig) (p : Int)
    (h : ∃ c ∈ recs, c.offset ≤ p) :
    ∃ c ∈ recs, c.offset ≤ p ∧ (∀ c' ∈ recs, c'.offset ≤ p → c'.offset ≤ c.offset) ∧
      get_contig_location (build recs) p =
        .ok (if p < wrap64 (c.offset + c.length)
          then some (c.name, wrap64 (p - c.offset)) else none) :=
  locate_char { contigs := recs, m_sample_names := [] } p h

theorem build_locate_fault (recs : List Contig) (p : Int)
    (h : ∀ c ∈ recs, p < c.offset) :
    get_contig_location (build recs) p = .error
      (if recs = [] then Fault.assert_view_nonempty else Fault.assert_iter_not_begin) :=
  locate_fault { contigs := recs, m_sample_names := [] } p h

theorem build_next_char (recs : List Contig) (p : Int)
    (h : ∃ c ∈ recs, p < c.offset) :
    ∃ c ∈ recs, p < c.offset ∧ (∀ c' ∈ recs, p < c'.offset → c.offset ≤ c'.offset) ∧
      get_next_contig_location (build recs) p = .ok (some (c.name, c.offset)) :=
  next_char { contigs := recs, m_sample_names := [] } p h

theorem build_next_sentinel (recs : List Contig) (p : Int)
    (h : ∀ c ∈ recs, c.offset ≤ p) :
    get_next_contig_location (build recs) p = .ok (some ("", INT64_MAX)) :=
  next_sentinel { contigs := recs, m_sample_names := [] } p h

/-- The decision of `get_contig_location` on a well-typed candidate record. -/
theorem decide_on_candidate (c : Contig) (p : Int) (hty : c.WellTyped)
    (hle : c.offset ≤ p) :
    (if p < wrap64 (c.offset + c.length)
      then some (c.name, wrap64 (p - c.offset)) else none) =
    (if p < c.offset + c.length then some (c.name, p - c.offset) else none) := by
  rw [wrap64_of_isInt64 hty.2.2]
  by_cases h : p < c.offset + c.length
  · rw [if_pos h, if_pos h]
    have : IsInt64 (p - c.offset) := by
      have h1 := hty.2.1
      unfold IsInt64 INT64_MIN INT64_MAX at *
      omega
    rw [wrap64_of_isInt64 this]
  · rw [if_neg h, if_neg h]

/-- Either some record starts at or below the position, or all start above it. -/
theorem low_or_all_above (recs : List Contig) (p : Int) :
    (∃ c ∈ recs, c.offset ≤ p) ∨ (∀ c ∈ recs, p < c.offset) := by
  by_cases h : ∃ c ∈ recs, c.offset ≤ p
  · exact Or.inl h
  · right
    intro c hc
    by_contra hn
    exact h ⟨c, hc, by omega⟩

theorem rangesDisjoint_symm : Symmetric RangesDisjoint := by
  intro a b h
  unfold RangesDisjoint at *
  omega

/-- On well-typed records of positive length with pairwise disjoint ranges, a position
inside the range of a record is located in that record. -/
theorem locate_of_contains (recs : List Contig) (p : Int)
    (hty : ∀ d ∈ recs, d.WellTyped)
    (hpos : ∀ d ∈ recs, 0 < d.length)
    (hdisj : recs.Pairwise RangesDisjoint)
    (c : Contig) (hc : c ∈ recs) (hp : c.Contains p) :
    get_contig_location (build recs) p = .ok (some (c.name, p - c.offset)) := by
  obtain ⟨m, hm, hmp, hmax, hres⟩ := build_locate_char recs p ⟨c, hc, hp.1⟩
  have hcm : m = c := by
    by_contra hne
    have hd := hdisj.forall rangesDisjoint_symm hm hc hne
    have h1 := hmax c hc hp.1
    have h2 := hpos m hm
    have h3 := hp.2
    unfold RangesDisjoint at hd
    omega
  subst hcm
  rw [hres, decide_on_candidate m p (hty m hm) hmp, if_pos hp.2]

/-! ## The claims -/

/-- C1. For records of positive length with pairwise disjoint ranges, given in any
order, every position inside the range of a contig is located in that contig, at the
position minus the contig's offset.  In particular, when each contig ends where another
begins or at the overall end `hi`, no position from the smallest offset up to `hi` is
reported as not found. -/
theorem locate_inside_contig (recs : List Contig) (p : Int)
    (hty : ∀ d ∈ recs, d.WellTyped)
    (hpos : ∀ d ∈ recs, 0 < d.length)
    (hdisj : recs.Pairwise RangesDisjoint) :
    (∀ c ∈ recs, c.Contains p →
      get_contig_location (build recs) p = .ok (some (c.name, p - c.offset))) ∧
    (∀ hi : Int,
      (∀ c ∈ recs, c.offset + c.length = hi ∨ ∃ d ∈ recs, d.offset = c.offset + c.length) →
      (∃ c ∈ recs, c.offset ≤ p) → p < hi →
      ∃ c ∈ recs, c.Contains p ∧
        get_contig_location (build recs) p = .ok (some (c.name, p - c.offset))) := by
  have partA : ∀ c ∈ recs, c.Contains p →
      get_contig_location (build recs) p = .ok (some (c.name, p - c.offset)) :=
    fun c hc hp => locate_of_contains recs p hty hpos hdisj c hc hp
  refine ⟨partA, ?_⟩
  intro hi hcont hlow hphi
  obtain ⟨m, hm, hmp, hmax, _⟩ := build_locate_char recs p hlow
  have hin : m.Contains p := by
    refine ⟨hmp, ?_⟩
    by_contra hge
    rcases hcont m hm with hend | ⟨d, hd, hdo⟩
    · omega
    · have h1 := hmax d hd (by omega)
      have h2 := hpos m hm
      omega
  exact ⟨m, hm, hin, partA m hm hin⟩


/-- C1 at the contigs chr1 = [0, 100), chr2 = [100, 150) and the position 120. -/
theorem locate_inside_contig_witness :
    (∀ d ∈ scenario_contiguous, d.WellTyped) ∧
    (∀ d ∈ scenario_contiguous, 0 < d.length) ∧
    scenario_contiguous.Pairwise RangesDisjoint ∧
    get_contig_location (build scenario_contiguous) 120 = .ok (some ("chr2", 20)) :=
  ⟨by decide, by decide, by decide,
    (locate_inside_contig scenario_contiguous 120 (by decide) (by decide) (by decide)).1
      ⟨"chr2", 100, 50⟩ (by decide) (by decide)⟩

/-- C2. When some contig starts strictly above the position,
`get_next_contig_location` returns the name and offset of a contig whose offset is the
least one strictly above the position, so the returned offset is above the position.
In particular, below the offset of the contig that starts first, it returns that
contig's name and offset. -/
theorem next_contig_least_above (recs : List Contig) (p : Int)
    (h : ∃ c ∈ recs, p < c.offset) :
    (∃ c ∈ recs, get_next_contig_location (build recs) p = .ok (some (c.name, c.offset)) ∧
      p < c.offset ∧ ∀ c' ∈ recs, p < c'.offset → c.offset ≤ c'.offset) ∧
    (∀ first ∈ recs, (∀ c' ∈ recs, c' ≠ first → first.offset < c'.offset) →
      p < first.offset →
      get_next_contig_location (build recs) p = .ok (some (first.name, first.offset))) := by
  obtain ⟨c, hc, hpc, hmin, hres⟩ := build_next_char recs p h
  refine ⟨⟨c, hc, hres, hpc, hmin⟩, ?_⟩
  intro first hf hfirst hpf
  have hcf : c = first := by
    by_contra hne
    have h1 := hfirst c hc hne
    have h2 := hmin first hf hpf
    omega
  rw [hres, hcf]

/-- C2 at the scenario with a gap: after position 5 the next contig is chrB at 20. -/
theorem next_contig_least_above_witness :
    (∃ c ∈ scenario_gap, (5 : Int) < c.offset) ∧
    ∃ c ∈ scenario_gap,
      get_next_contig_location (build scenario_gap) 5 = .ok (some (c.name, c.offset)) ∧
      (5 : Int) < c.offset ∧ ∀ c' ∈ scenario_gap, (5 : Int) < c'.offset → c.offset ≤ c'.offset :=
  ⟨by decide, (next_contig_least_above scenario_gap 5 (by decide)).1⟩

/-- C3. When no contig starts above the position (in particular for the registry built
from the empty list), `get_next_contig_location` returns the sentinel: the empty name
and `INT64_MAX`. -/
theorem next_contig_sentinel (recs : List Contig) (p : Int)
    (h : ∀ c ∈ recs, c.offset ≤ p) :
    get_next_contig_location (build recs) p = .ok (some ("", INT64_MAX)) :=
  build_next_sentinel recs p h

/-- C3 at the contiguous scenario and position 100, the offset of the last contig. -/
theorem next_contig_sentinel_witness :
    (∀ c ∈ scenario_contiguous, c.offset ≤ 100) ∧
    get_next_contig_location (build scenario_contiguous) 100 =
      .ok (some ("", 9223372036854775807)) :=
  ⟨by decide, next_contig_sentinel scenario_contiguous 100 (by decide)⟩

/-- C4. On a registry of well-typed records, a position at or above the smallest offset
that lies in the range of no contig is reported as not found. -/
theorem locate_outside_contigs (recs : List Contig) (p : Int)
    (hty : ∀ d ∈ recs, d.WellTyped)
    (hlow : ∃ c ∈ recs, c.offset ≤ p)
    (hout : ∀ c ∈ recs, ¬ c.Contains p) :
    get_contig_location (build recs) p = .ok none := by
  obtain ⟨m, hm, hmp, _, hres⟩ := build_locate_char recs p hlow
  rw [hres, decide_on_candidate m p (hty m hm) hmp, if_neg]
  intro hlt
  exact hout m hm ⟨hmp, hlt⟩

/-- C4 at the scenario with a gap and position 15, inside the gap. -/
theorem locate_outside_contigs_witness :
    (∀ d ∈ scenario_gap, d.WellTyped) ∧
    (∃ c ∈ scenario_gap, c.offset ≤ 15) ∧
    (∀ c ∈ scenario_gap, ¬ c.Contains 15) ∧
    get_contig_location (build scenario_gap) 15 = .ok none :=
  ⟨by decide, by decide, by decide,
    locate_outside_contigs scenario_gap 15 (by decide) (by decide) (by decide)⟩

/-- C5 as stated fails: two records declared at the same offset, given in the two
possible orders, answer differently at that offset. -/
theorem permutation_changes_locate :
    List.Perm [(⟨"a", 0, 10⟩ : Contig), ⟨"b", 0, 5⟩] [⟨"b", 0, 5⟩, ⟨"a", 0, 10⟩] ∧
    get_contig_location (build [⟨"a", 0, 10⟩, ⟨"b", 0, 5⟩]) 0 = .ok (some ("a", 0)) ∧
    get_contig_location (build [⟨"b", 0, 5⟩, ⟨"a", 0, 10⟩]) 0 = .ok (some ("b", 0)) ∧
    get_contig_location (build [⟨"a", 0, 10⟩, ⟨"b", 0, 5⟩]) 0 ≠
      get_contig_location (build [⟨"b", 0, 5⟩, ⟨"a", 0, 10⟩]) 0 :=
  ⟨List.Perm.swap _ _ _, by decide, by decide, by decide⟩

/-- C5, amended. For records with pairwise distinct offsets, every permutation of the
list builds a registry that answers `get_contig_location` and
`get_next_contig_location` as the original does, at every position. -/
theorem permutation_invariance (recs recs' : List Contig) (p : Int)
    (hdist : recs.Pairwise (fun a b => a.offset ≠ b.offset))
    (hperm : recs'.Perm recs) :
    get_contig_location (build recs') p = get_contig_location (build recs) p ∧
    get_next_contig_location (build recs') p = get_next_contig_location (build recs) p := by
  have hsymm : Symmetric (fun a b : Contig => a.offset ≠ b.offset) :=
    fun a b h => fun h' => h h'.symm
  have hsame : ∀ a ∈ recs, ∀ b ∈ recs, a.offset = b.offset → a = b := by
    intro a ha b hb hab
    by_contra hne
    exact hdist.forall hsymm ha hb hne hab
  have hmem : ∀ c, c ∈ recs' ↔ c ∈ recs := fun c => hperm.mem_iff
  constructor
  · rcases low_or_all_above recs p with hlow | habove
    · obtain ⟨c, hc, _, hmax, hres⟩ := build_locate_char recs p hlow
      obtain ⟨c', hc', hcp', hmax', hres'⟩ := build_locate_char recs' p
        (by obtain ⟨d, hd, hdp⟩ := hlow; exact ⟨d, (hmem d).2 hd, hdp⟩)
      have hcc : c' = c := by
        apply hsame c' ((hmem c').1 hc') c hc
        have h1 := hmax c' ((hmem c').1 hc') hcp'
        have h2 := hmax' c ((hmem c).2 hc) (by assumption)
        omega
      rw [hres, hres', hcc]
    · rw [build_locate_fault recs p habove,
        build_locate_fault recs' p (fun c hc => habove c ((hmem c).1 hc))]
      have hnil : recs' = [] ↔ recs = [] := by
        rw [← List.length_eq_zero, ← List.length_eq_zero, hperm.length_eq]
      by_cases hn : recs = []
      · rw [if_pos hn, if_pos (hnil.2 hn)]
      · rw [if_neg hn, if_neg (fun hh => hn (hnil.1 hh))]
  · by_cases hup : ∃ c ∈ recs, p < c.offset
    · obtain ⟨c, hc, hcp, hmin, hres⟩ := build_next_char recs p hup
      obtain ⟨c', hc', hcp', hmin', hres'⟩ := build_next_char recs' p
        (by obtain ⟨d, hd, hdp⟩ := hup; exact ⟨d, (hmem d).2 hd, hdp⟩)
      have hcc : c' = c := by
        apply hsame c' ((hmem c').1 hc') c hc
        have h1 := hmin c' ((hmem c').1 hc') hcp'
        have h2 := hmin' c ((hmem c).2 hc) hcp
        omega
      rw [hres, hres', hcc]
    · have hall : ∀ c ∈ recs, c.offset ≤ p := by
        intro c hc
        by_contra hn
        exact hup ⟨c, hc, by omega⟩
      rw [build_next_sentinel recs p hall,
        build_next_sentinel recs' p (fun c hc => hall c ((hmem c).1 hc))]

/-- C5, amended, at the scenario with a gap and its reversal, position 25. -/
theorem permutation_invariance_witness :
    scenario_gap.Pairwise (fun a b => a.offset ≠ b.offset) ∧
    scenario_gap.reverse.Perm scenario_gap ∧
    get_contig_location (build scenario_gap.reverse) 25 =
      get_contig_location (build scenario_gap) 25 ∧
    get_next_contig_location (build scenario_gap.reverse) 25 =
      get_next_contig_location (build scenario_gap) 25 :=
  ⟨by decide, List.reverse_perm _,
    permutation_invariance scenario_gap scenario_gap.reverse 25 (by decide)
      (List.reverse_perm _)⟩

/-- C6. Round trip: when `get_contig_location` succeeds on a registry of well-typed
records with a name and a local position, the registry holds a record of that name
whose offset plus the local position is the queried position, and the local position is
at least zero and below the length of that record. -/
theorem locate_round_trip (recs : List Contig) (p : Int) (name : String) (loc : Int)
    (hty : ∀ d ∈ recs, d.WellTyped)
    (h : get_contig_location (build recs) p = .ok (some (name, loc))) :
    ∃ c ∈ recs, c.name = name ∧ c.offset + loc = p ∧ 0 ≤ loc ∧ loc < c.length := by
  rcases low_or_all_above recs p with hlow | habove
  · obtain ⟨m, hm, hmp, _, hres⟩ := build_locate_char recs p hlow
    rw [hres, decide_on_candidate m p (hty m hm) hmp] at h
    by_cases hlt : p < m.offset + m.length
    · rw [if_pos hlt] at h
      simp only [Except.ok.injEq, Option.some.injEq, Prod.mk.injEq] at h
      exact ⟨m, hm, h.1, by omega, by omega, by omega⟩
    · rw [if_neg hlt] at h
      simp at h
  · rw [build_locate_fault recs p habove] at h
    simp at h

/-- C6 at the scenario with a gap: position 25 is chrB, local position 5. -/
theorem locate_round_trip_witness :
    (∀ d ∈ scenario_gap, d.WellTyped) ∧
    get_contig_location (build scenario_gap) 25 = .ok (some ("chrB", 5)) ∧
    ∃ c ∈ scenario_gap, c.name = "chrB" ∧ c.offset + 5 = 25 ∧ (0 : Int) ≤ 5 ∧ 5 < c.length :=
  ⟨by decide, by decide,
    locate_round_trip scenario_gap 25 "chrB" 5 (by decide) (by decide)⟩

/-- C7 as stated fails: with contigs in ascending order of offset and of positive
length, the second lying inside the first, the last position of the first contig is
reported as not found. -/
theorem overlap_hides_last_position :
    scenario_overlap.Pairwise (fun a b => a.offset < b.offset) ∧
    (∀ d ∈ scenario_overlap, 0 < d.length) ∧
    (⟨"a", 0, 100⟩ : Contig) ∈ scenario_overlap ∧
    get_contig_location (build scenario_overlap) (0 + 100 - 1) = .ok none ∧
    get_contig_location (build scenario_overlap) (0 + 100 - 1) ≠ .ok (some ("a", 100 - 1)) :=
  ⟨by decide, by decide, by decide, by decide, by decide⟩

/-- C7, amended. For well-typed contigs in ascending order of offset, of positive
length and with pairwise disjoint ranges, the offset of every contig is located at
local position 0 of that contig and its last position `offset + length - 1` at local
position `length - 1`. -/
theorem locate_contig_bounds (recs : List Contig)
    (_hasc : recs.Pairwise (fun a b => a.offset ≤ b.offset))
    (hty : ∀ d ∈ recs, d.WellTyped)
    (hpos : ∀ d ∈ recs, 0 < d.length)
    (hdisj : recs.Pairwise RangesDisjoint) :
    ∀ c ∈ recs,
      get_contig_location (build recs) c.offset = .ok (some (c.name, 0)) ∧
      get_contig_location (build recs) (c.offset + c.length - 1) =
        .ok (some (c.name, c.length - 1)) := by
  intro c hc
  have hl := hpos c hc
  have h1 := locate_of_contains recs c.offset hty hpos hdisj c hc
    ⟨le_refl _, by omega⟩
  have h2 := locate_of_contains recs (c.offset + c.length - 1) hty hpos hdisj c hc
    ⟨by omega, by omega⟩
  refine ⟨by simpa using h1, ?_⟩
  have e : c.offset + c.length - 1 - c.offset = c.length - 1 := by ring
  rw [h2, e]

/-- C7, amended, at the contiguous scenario, for its second contig. -/
theorem locate_contig_bounds_witness :
    scenario_contiguous.Pairwise (fun a b => a.offset ≤ b.offset) ∧
    (∀ d ∈ scenario_contiguous, d.WellTyped) ∧
    (∀ d ∈ scenario_contiguous, 0 < d.length) ∧
    scenario_contiguous.Pairwise RangesDisjoint ∧
    get_contig_location (build scenario_contiguous) 100 = .ok (some ("chr2", 0)) ∧
    get_contig_location (build scenario_contiguous) (100 + 50 - 1) =
      .ok (some ("chr2", 50 - 1)) :=
  ⟨by decide, by decide, by decide, by decide,
    locate_contig_bounds scenario_contiguous (by decide) (by decide) (by decide)
      (by decide) ⟨"chr2", 100, 50⟩ (by decide)⟩

/-- C8 as stated fails: on a registry with one contig starting at 10, position 3 lies in
no contig and the call ends in the failed assertion on the iterator. -/
theorem locate_below_first_asserts :
    scenario_high_start ≠ [] ∧
    (∀ c ∈ scenario_high_start, ¬ c.Contains 3) ∧
    get_contig_location (build scenario_high_start) 3 = .error .assert_iter_not_begin :=
  ⟨by decide, by decide, by decide⟩

/-- C8, amended. On a non-empty registry, `get_contig_location` returns a result value
(a name with a local position, or not found) at every position at or above the smallest
offset; at a position below every offset the assertion on the iterator fails. -/
theorem locate_result_or_assert (recs : List Contig) (p : Int) (hne : recs ≠ []) :
    ((∃ c ∈ recs, c.offset ≤ p) →
      ∃ r : Option (String × Int), get_contig_location (build recs) p = .ok r) ∧
    ((∀ c ∈ recs, p < c.offset) →
      get_contig_location (build recs) p = .error .assert_iter_not_begin) := by
  constructor
  · intro hlow
    obtain ⟨m, _, _, _, hres⟩ := build_locate_char recs p hlow
    exact ⟨_, hres⟩
  · intro habove
    rw [build_locate_fault recs p habove, if_neg hne]

/-- C8, amended, at the scenario with a gap: position 15 gives a result value. -/
theorem locate_result_or_assert_witness :
    scenario_gap ≠ [] ∧
    ∃ r : Option (String × Int), get_contig_location (build scenario_gap) 15 = .ok r :=
  ⟨by decide, (locate_result_or_assert scenario_gap 15 (by decide)).1 (by decide)⟩

/-- C9 as stated fails: on the registry built from the empty list, the query at
position 0 ends in the failed assertion on the size of the view, not in "not found". -/
theorem locate_empty_asserts_at_zero :
    get_contig_location (build []) 0 = .error .assert_view_nonempty ∧
    get_contig_location (build []) 0 ≠ .ok none :=
  ⟨by decide, by decide⟩

/-- C9, amended. On the registry built from the empty list, `get_contig_location` ends
in the failed assertion `m_contig_begin_2_idx.size() > 0u` at every position; no array
is read. -/
theorem locate_empty_asserts (p : Int) :
    get_contig_location (build []) p = .error .assert_view_nonempty := by
  rw [build_locate_fault [] p (by simp)]
  simp

/-- C10. What `get_sample_name_for_idx` does with an index: a negative index passes the
assertion and reads outside the array of names; an index at or above the number of
samples fails the assertion; an index in range returns the name stored there. -/
theorem get_sample_name_cases (a : VCFAdapter) (idx : Int) :
    (idx < 0 → get_sample_name_for_idx a idx = .error .out_of_bounds_read) ∧
    (a.m_sqlite_mapping_info.m_num_samples ≤ idx →
      get_sample_name_for_idx a idx = .error .assert_sample_idx) ∧
    (∀ (k : Nat) (name : String), a.m_sqlite_mapping_info.m_sample_names[k]? = some name →
      idx = (k : Int) → get_sample_name_for_idx a idx = .ok name) := by
  refine ⟨?_, ?_, ?_⟩
  · intro hneg
    have hlt : idx < a.m_sqlite_mapping_info.m_num_samples := by
      unfold sqlite_mappings_struct.m_num_samples
      omega
    simp only [get_sample_name_for_idx, read]
    rw [if_neg (by omega), if_neg (by omega)]
  · intro hge
    simp only [get_sample_name_for_idx]
    rw [if_pos (by omega)]
  · intro k name hk hidx
    subst hidx
    have hklt : k < a.m_sqlite_mapping_info.m_sample_names.length :=
      (List.getElem?_eq_some.1 hk).1
    simp only [get_sample_name_for_idx, sqlite_mappings_struct.m_num_samples]
    rw [if_neg (by omega)]
    exact read_nat _ _ _ hk

/-- C10 at one sample and the index -1: no assertion fails, the read is out of bounds. -/
theorem get_sample_name_negative :
    get_sample_name_for_idx scenario_one_sample (-1) = .error .out_of_bounds_read ∧
    get_sample_name_for_idx scenario_one_sample (-1) ≠ .error .assert_sample_idx :=
  ⟨(get_sample_name_cases scenario_one_sample (-1)).1 (by decide), by decide⟩

/-! ## Further facts on the views -/

theorem scan_begin_indices (cs : List Contig) :
    (scan_contigs 0 0 cs).1.map Prod.snd = (List.range cs.length).map Int.ofNat := by
  apply List.ext_getElem?
  intro k
  rw [List.getElem?_map, scan_begin_entry, List.getElem?_map]
  by_cases hk : k < cs.length
  · rw [List.getElem?_eq_getElem hk, List.getElem?_range hk]
    simp
  · rw [List.getElem?_eq_none (by omega), List.getElem?_eq_none (by simp; omega)]
    rfl

/-- C11. On every built registry, empty or not, `get_next_contig_location` returns
`true` with a name and an offset at every position, and whenever the search stops at an
entry of the view both assertions hold there: the backing index of the entry is at least
0 and below the number of contigs, and the offset of the contig it indexes is strictly
above the position. -/
theorem next_contig_never_fails (info : sqlite_mappings_struct) (p : Int) :
    (∃ name off,
      get_next_contig_location (initialize_adapter info) p = .ok (some (name, off))) ∧
    (∀ e, (initialize_adapter info).m_contig_begin_2_idx[
        upper_bound (initialize_adapter info).m_contig_begin_2_idx (p, 0)
          contig_offset_idx_pair_cmp]? = some e →
      0 ≤ e.2 ∧ e.2 < info.m_num_contigs ∧
        ∃ c, read info.contigs e.2 = .ok c ∧ p < c.offset) := by
  constructor
  · by_cases hup : ∃ c ∈ info.contigs, p < c.offset
    · obtain ⟨c, _, _, _, hres⟩ := next_char info p hup
      exact ⟨c.name, c.offset, hres⟩
    · refine ⟨"", INT64_MAX, next_sentinel info p ?_⟩
      intro c hc
      by_contra hn
      exact hup ⟨c, hc, by omega⟩
  · intro e he
    obtain ⟨_, _, hge⟩ := upper_bound_spec (initialize_adapter info).m_contig_begin_2_idx p
      (initialize_begin_sorted info)
    have hp := hge _ e (le_refl _) he
    obtain ⟨k, c, hk, rfl⟩ := (initialize_begin_mem info e).1
      (List.mem_iff_getElem?.2 ⟨_, he⟩)
    have hklt : k < info.contigs.length := (List.getElem?_eq_some.1 hk).1
    refine ⟨by simp, ?_, c, read_nat _ _ _ hk, hp⟩
    simp only [sqlite_mappings_struct.m_num_contigs]
    omega

/-- C13. For every list of records, in any order and with any offsets, the by-begin view
after `initialize` has one entry per record, its second components are a permutation of
the indices `0 .. N-1`, the first component of each entry is the offset of the record
the entry indexes, and the first components are in non-decreasing order. -/
theorem by_begin_invariant (recs : List Contig) :
    (build recs).m_contig_begin_2_idx.length = recs.length ∧
    ((build recs).m_contig_begin_2_idx.map Prod.snd).Perm
      ((List.range recs.length).map Int.ofNat) ∧
    (∀ e ∈ (build recs).m_contig_begin_2_idx,
      ∃ c, read recs e.2 = .ok c ∧ e.1 = c.offset) ∧
    ViewSorted (build recs).m_contig_begin_2_idx := by
  refine ⟨initialize_begin_length _, ?_, ?_, initialize_begin_sorted _⟩
  · have h := (initialize_begin_perm { contigs := recs, m_sample_names := [] }).map Prod.snd
    rw [scan_begin_indices] at h
    exact h
  · intro e he
    obtain ⟨k, c, hk, rfl⟩ :=
      (initialize_begin_mem { contigs := recs, m_sample_names := [] } e).1 he
    exact ⟨c, read_nat _ _ _ hk, rfl⟩

/-- C15. On a non-empty registry and at a position at or above the smallest offset, no
assertion of `get_contig_location` fails: the view is not empty, the search does not stop
at the first entry with an offset other than the position (so the step to the previous
entry is never taken there), the index chosen is at least 0 and below the number of
contigs, and the call returns a result value. -/
theorem locate_assertions_hold (recs : List Contig) (p : Int)
    (hlow : ∃ c ∈ recs, c.offset ≤ p) :
    0 < (build recs).m_contig_begin_2_idx.length ∧
    (∀ e, (build recs).m_contig_begin_2_idx[
        lower_bound (build recs).m_contig_begin_2_idx (p, 0)
          contig_offset_idx_pair_cmp]? = some e →
      e.1 ≠ p →
      lower_bound (build recs).m_contig_begin_2_idx (p, 0) contig_offset_idx_pair_cmp ≠ 0) ∧
    (∃ k : Nat, k < recs.length ∧ candidate_idx (build recs) p = .ok (k : Int)) ∧
    (∃ r, get_contig_location (build recs) p = .ok r) := by
  have hmem := initialize_begin_mem { contigs := recs, m_sample_names := [] }
  have hs : ViewSorted (build recs).m_contig_begin_2_idx := initialize_begin_sorted _
  obtain ⟨c0, hc0, hc0p⟩ := hlow
  obtain ⟨k0, hk0⟩ := List.mem_iff_getElem?.1 hc0
  have he0 : (c0.offset, (k0 : Int)) ∈ (build recs).m_contig_begin_2_idx :=
    (hmem _).2 ⟨k0, c0, hk0, rfl⟩
  obtain ⟨j0, hj0⟩ := List.mem_iff_getElem?.1 he0
  refine ⟨?_, ?_, ?_, ?_⟩
  · have := (List.getElem?_eq_some.1 hj0).1
    omega
  · intro e he hne h0
    obtain ⟨_, _, hge⟩ := lower_bound_spec (build recs).m_contig_begin_2_idx p hs
    have h1 := hge _ e (le_refl _) he
    have h2 := viewSorted_le hs (by omega) he hj0
    simp only at h2
    omega
  · obtain ⟨e, he, hcand, _, _⟩ := candidate_view (build recs) p hs
      ⟨_, he0, hc0p⟩
    obtain ⟨k, c, hk, rfl⟩ := (hmem e).1 he
    exact ⟨k, (List.getElem?_eq_some.1 hk).1, hcand⟩
  · obtain ⟨m, _, _, _, hres⟩ := build_locate_char recs p ⟨c0, hc0, hc0p⟩
    exact ⟨_, hres⟩

/-- C15 at the scenario with a gap and position 15. -/
theorem locate_assertions_hold_witness :
    (∃ c ∈ scenario_gap, c.offset ≤ 15) ∧
    ∃ r, get_contig_location (build scenario_gap) 15 = .ok r :=
  ⟨by decide, (locate_assertions_hold scenario_gap 15 (by decide)).2.2.2⟩

/-- C12. For every output-format string other than "b", "bu", "z" and the empty string,
`initialize` goes on with the format "z" and `m_is_bcf` false; each of the four
recognised strings is kept as it is, with `m_is_bcf` true for "b" and "bu" and false for
"z" and the empty string. -/
theorem output_format_fallback (output_format : String) :
    (output_format ≠ "b" → output_format ≠ "bu" → output_format ≠ "z" →
      output_format ≠ "" → select_output_format output_format = ("z", false)) ∧
    select_output_format "b" = ("b", true) ∧
    select_output_format "bu" = ("bu", true) ∧
    select_output_format "z" = ("z", false) ∧
    select_output_format "" = ("", false) := by
  refine ⟨?_, by decide, by decide, by decide, by decide⟩
  intro h1 h2 h3 h4
  have e1 : (output_format == "b") = false := by simpa using h1
  have e2 : (output_format == "bu") = false := by simpa using h2
  have e3 : (output_format == "z") = false := by simpa using h3
  have e4 : (output_format == "") = false := by simpa using h4
  have hl : valid_output_formats.lookup output_format = none := by
    simp [valid_output_formats, List.lookup, e1, e2, e3, e4]
  simp only [select_output_format, hl, Option.isNone_none, if_true]
  decide

/-- C12 at the unrecognised format string "v". -/
theorem output_format_fallback_witness :
    select_output_format "v" = ("z", false) :=
  (output_format_fallback "v").1 (by decide) (by decide) (by decide) (by decide)

/-- C14. With the contigs a = [0, 100) and b = [50, 60), of positive length and given in
ascending order of offset, the scan leaves `sort_needed` unset, no sort runs, and the
by-end view stays in input order, (99, 0) before (59, 1): its first components are not
in non-decreasing order. -/
theorem by_end_view_unsorted :
    (∀ d ∈ scenario_overlap, 0 < d.length) ∧
    (∀ d ∈ scenario_overlap, d.WellTyped) ∧
    (scan_contigs 0 0 scenario_overlap).2.2 = false ∧
    (build scenario_overlap).m_contig_end_2_idx = [(99, 0), (59, 1)] ∧
    ¬ ViewSorted (build scenario_overlap).m_contig_end_2_idx := by
  refine ⟨by decide, by decide, by decide, by decide, ?_⟩
  have h : (build scenario_overlap).m_contig_end_2_idx = [(99, 0), (59, 1)] := by decide
  rw [h]
  simp [ViewSorted]

/-- C16. On a registry of well-typed records with pairwise distinct offsets, let `j` be
the record with the greatest offset not above the position.  Then
`get_contig_location` answers from `j` alone: the name of `j` with the position minus
its offset when the position is below `offset + length` of `j`, and not found otherwise,
whatever the other records contain. -/
theorem locate_predecessor (recs : List Contig) (p : Int) (j : Contig)
    (hty : ∀ d ∈ recs, d.WellTyped)
    (hdist : recs.Pairwise (fun a b => a.offset ≠ b.offset))
    (hj : j ∈ recs) (hjp : j.offset ≤ p)
    (hmax : ∀ c ∈ recs, c.offset ≤ p → c.offset ≤ j.offset) :
    get_contig_location (build recs) p =
      .ok (if p < j.offset + j.length then some (j.name, p - j.offset) else none) := by
  have hsymm : Symmetric (fun a b : Contig => a.offset ≠ b.offset) :=
    fun a b h => fun h' => h h'.symm
  obtain ⟨m, hm, hmp, hmmax, hres⟩ := build_locate_char recs p ⟨j, hj, hjp⟩
  have hmj : m = j := by
    by_contra hne
    have h1 := hmax m hm hmp
    have h2 := hmmax j hj hjp
    exact hdist.forall hsymm hm hj hne (by omega)
  subst hmj
  rw [hres, decide_on_candidate m p (hty m hm) hmp]

/-- C16 at the overlapping scenario: position 99 lies in a = [0, 100), but the record
with the greatest offset not above 99 is b = [50, 60), so the answer is not found. -/
theorem locate_predecessor_witness :
    (∀ d ∈ scenario_overlap, d.WellTyped) ∧
    scenario_overlap.Pairwise (fun a b => a.offset ≠ b.offset) ∧
    (⟨"a", 0, 100⟩ : Contig).Contains 99 ∧
    get_contig_location (build scenario_overlap) 99 = .ok none :=
  ⟨by decide, by decide, by decide,
    locate_predecessor scenario_overlap 99 ⟨"b", 50, 10⟩ (by decide) (by decide)
      (by decide) (by decide) (by decide)⟩

/-- C17. On a registry of well-typed records of positive length with pairwise distinct
offsets, whenever `get_next_contig_location` returns a name and an offset other than
the sentinel, `get_contig_location` at that offset returns that name with local
position 0. -/
theorem next_then_locate (recs : List Contig) (p : Int) (name : String) (off : Int)
    (hty : ∀ d ∈ recs, d.WellTyped)
    (hpos : ∀ d ∈ recs, 0 < d.length)
    (hdist : recs.Pairwise (fun a b => a.offset ≠ b.offset))
    (hnext : get_next_contig_location (build recs) p = .ok (some (name, off)))
    (hns : (name, off) ≠ ("", INT64_MAX)) :
    get_contig_location (build recs) off = .ok (some (name, 0)) := by
  have hsymm : Symmetric (fun a b : Contig => a.offset ≠ b.offset) :=
    fun a b h => fun h' => h h'.symm
  by_cases hup : ∃ c ∈ recs, p < c.offset
  · obtain ⟨c, hc, _, _, hres⟩ := build_next_char recs p hup
    rw [hres] at hnext
    simp only [Except.ok.injEq, Option.some.injEq, Prod.mk.injEq] at hnext
    obtain ⟨hn, ho⟩ := hnext
    subst hn ho
    obtain ⟨m, hm, hmp, hmmax, hloc⟩ := build_locate_char recs c.offset
      ⟨c, hc, le_refl _⟩
    have hmc : m = c := by
      by_contra hne
      have h2 := hmmax c hc (le_refl _)
      exact hdist.forall hsymm hm hc hne (by omega)
    subst hmc
    have hl := hpos m hm
    rw [hloc, decide_on_candidate m m.offset (hty m hm) (le_refl _), if_pos (by omega)]
    simp
  · have hall : ∀ c ∈ recs, c.offset ≤ p := by
      intro c hc
      by_contra hn
      exact hup ⟨c, hc, by omega⟩
    rw [build_next_sentinel recs p hall] at hnext
    simp only [Except.ok.injEq, Option.some.injEq, Prod.mk.injEq] at hnext
    exact absurd (Prod.ext hnext.1.symm hnext.2.symm) hns

/-- C17 at the scenario with a gap: after position 5 comes chrB at 20, and position 20 is
chrB, local position 0. -/
theorem next_then_locate_witness :
    (∀ d ∈ scenario_gap, d.WellTyped) ∧
    (∀ d ∈ scenario_gap, 0 < d.length) ∧
    scenario_gap.Pairwise (fun a b => a.offset ≠ b.offset) ∧
    get_next_contig_location (build scenario_gap) 5 = .ok (some ("chrB", 20)) ∧
    get_contig_location (build scenario_gap) 20 = .ok (some ("chrB", 0)) :=
  ⟨by decide, by decide, by decide, by decide,
    next_then_locate scenario_gap 5 "chrB" 20 (by decide) (by decide) (by decide)
      (by decide) (by decide)⟩

/-- C18. On a registry whose offsets are `int64_t` values, for positions `p ≤ q` the
offset returned by `get_next_contig_location` at `p` is at most the one returned at
`q`, the sentinel offset `INT64_MAX` included. -/
theorem next_contig_monotone (recs : List Contig) (p q : Int)
    (hty : ∀ d ∈ recs, IsInt64 d.offset)
    (hpq : p ≤ q) :
    ∃ n1 o1 n2 o2,
      get_next_contig_location (build recs) p = .ok (some (n1, o1)) ∧
      get_next_contig_location (build recs) q = .ok (some (n2, o2)) ∧
      o1 ≤ o2 := by
  have hall : ∀ x : Int, (¬ ∃ c ∈ recs, x < c.offset) → ∀ c ∈ recs, c.offset ≤ x := by
    intro x hx c hc
    by_contra hn
    exact hx ⟨c, hc, by omega⟩
  by_cases hq : ∃ c ∈ recs, q < c.offset
  · obtain ⟨c2, hc2, hqc2, _, hres2⟩ := build_next_char recs q hq
    obtain ⟨c1, _, _, hmin1, hres1⟩ := build_next_char recs p ⟨c2, hc2, by omega⟩
    exact ⟨c1.name, c1.offset, c2.name, c2.offset, hres1, hres2,
      hmin1 c2 hc2 (by omega)⟩
  · have hres2 := build_next_sentinel recs q (hall q hq)
    by_cases hp : ∃ c ∈ recs, p < c.offset
    · obtain ⟨c1, hc1, _, _, hres1⟩ := build_next_char recs p hp
      exact ⟨c1.name, c1.offset, "", INT64_MAX, hres1, hres2, (hty c1 hc1).2⟩
    · exact ⟨"", INT64_MAX, "", INT64_MAX, build_next_sentinel recs p (hall p hp),
        hres2, le_refl _⟩

/-- C18 at the contiguous scenario, positions 50 and 200: chr2 at 100, then the
sentinel. -/
theorem next_contig_monotone_witness :
    (∀ d ∈ scenario_contiguous, IsInt64 d.offset) ∧ (50 : Int) ≤ 200 ∧
    ∃ n1 o1 n2 o2,
      get_next_contig_location (build scenario_contiguous) 50 = .ok (some (n1, o1)) ∧
      get_next_contig_location (build scenario_contiguous) 200 = .ok (some (n2, o2)) ∧
      o1 ≤ o2 :=
  ⟨by decide, by decide,
    next_contig_monotone scenario_contiguous 50 200 (by decide) (by decide)⟩

end GenomicsDB
